import Mathlib

/-!
Verification of the hybrid product search core: chunk generation
(preprocessing_indexing/main.py), chunk reassembly, fuzzy matching and
result fusion (product_search/main.py), shallowly embedded in Lean.
Python floats are modelled exactly as rationals, Python lists as `List`,
Python dicts as association lists or explicit lookup functions.
-/

namespace HybridSearch

/-- Python's `" ".join(l)`. -/
def joinSpace : List String → String
  | [] => ""
  | [s] => s
  | s :: rest => s ++ " " ++ joinSpace rest

/-- Embeds `doc_chunks(list1, list2)` from preprocessing_indexing/main.py:
window size is `min(len(list1), len(list2))`; empty input gives `[]`;
otherwise every window of `list1` is crossed with every window of `list2`
and the two windows are joined with spaces. -/
def doc_chunks (list1 list2 : List String) : List String :=
  let min_length := min list1.length list2.length
  if min_length = 0 then []
  else
    let window_size := min_length
    (List.range (max 1 (list1.length - window_size + 1))).flatMap fun i =>
      (List.range (max 1 (list2.length - window_size + 1))).map fun j =>
        let l1 := if i + window_size ≤ list1.length
                  then (list1.drop i).take window_size else list1.drop i
        let l2 := if j + window_size ≤ list2.length
                  then (list2.drop j).take window_size else list2.drop j
        joinSpace l1 ++ " " ++ joinSpace l2

/-- Embeds `get_chunks_for_product(color, product_type, occasion)`:
first cross `product_type` with `occasion`, then cross `color` with the
result. -/
def get_chunks_for_product (color product_type occasion : List String) : List String :=
  let cross_prod_occasion := doc_chunks product_type occasion
  let cross_color := doc_chunks color cross_prod_occasion
  cross_color

lemma doc_chunks_nil_left (l : List String) : doc_chunks [] l = [] := by
  simp [doc_chunks]

lemma doc_chunks_nil_right (l : List String) : doc_chunks l [] = [] := by
  simp [doc_chunks]

lemma doc_chunks_length (l1 l2 : List String) (h1 : l1 ≠ []) (h2 : l2 ≠ []) :
    (doc_chunks l1 l2).length =
      (l1.length - min l1.length l2.length + 1) *
        (l2.length - min l1.length l2.length + 1) := by
  have hl1 : 0 < l1.length := List.length_pos.mpr h1
  have hl2 : 0 < l2.length := List.length_pos.mpr h2
  have hmin : 0 < min l1.length l2.length := lt_min hl1 hl2
  have hne : ¬ (min l1.length l2.length = 0) := Nat.pos_iff_ne_zero.mp hmin
  have hw1 : min l1.length l2.length ≤ l1.length := min_le_left _ _
  have hw2 : min l1.length l2.length ≤ l2.length := min_le_right _ _
  have hmax1 : max 1 (l1.length - min l1.length l2.length + 1)
      = l1.length - min l1.length l2.length + 1 :=
    max_eq_right (Nat.succ_le_succ (Nat.zero_le _))
  have hmax2 : max 1 (l2.length - min l1.length l2.length + 1)
      = l2.length - min l1.length l2.length + 1 :=
    max_eq_right (Nat.succ_le_succ (Nat.zero_le _))
  simp only [doc_chunks, hne, if_false]
  rw [List.flatMap, List.length_flatten, List.map_map]
  simp only [Function.comp_def, List.length_map, List.length_range]
  rw [List.map_const', List.sum_replicate, List.length_range, smul_eq_mul,
    hmax1, hmax2]

/-- C5: `windowedCross` returns `[]` when either input is empty, and for
non-empty inputs its output has exactly `(len1-w+1)*(len2-w+1)` elements
where `w = min(len1, len2)`. -/
theorem claim_C5 (l1 l2 : List String) :
    ((l1 = [] ∨ l2 = []) → doc_chunks l1 l2 = []) ∧
    (l1 ≠ [] → l2 ≠ [] →
      (doc_chunks l1 l2).length =
        (l1.length - min l1.length l2.length + 1) *
          (l2.length - min l1.length l2.length + 1)) := by
  constructor
  · rintro (rfl | rfl)
    · exact doc_chunks_nil_left l2
    · exact doc_chunks_nil_right l1
  · exact doc_chunks_length l1 l2

/-- Closed instance of C5 at concrete inputs. -/
theorem claim_C5_witness :
    doc_chunks [] ["a"] = [] ∧
    (doc_chunks ["a", "b"] ["c", "d", "e"]).length =
      (2 - min 2 3 + 1) * (3 - min 2 3 + 1) :=
  ⟨(claim_C5 [] ["a"]).1 (Or.inl rfl),
   (claim_C5 ["a", "b"] ["c", "d", "e"]).2 (by decide) (by decide)⟩

/-- C6: `buildProductChunks` is the two-stage composition
`windowedCross(color, windowedCross(type, occasion))`; on
color=["red","blue"], type=["dress"], occasion=["party","formal"] the
intermediate stage has exactly 1*2=2 chunks and the final output equals
the composition. -/
theorem claim_C6 :
    (∀ color product_type occasion : List String,
      get_chunks_for_product color product_type occasion =
        doc_chunks color (doc_chunks product_type occasion)) ∧
    doc_chunks ["dress"] ["party", "formal"] = ["dress party", "dress formal"] ∧
    (doc_chunks ["dress"] ["party", "formal"]).length = 1 * 2 ∧
    get_chunks_for_product ["red", "blue"] ["dress"] ["party", "formal"] =
      doc_chunks ["red", "blue"] (doc_chunks ["dress"] ["party", "formal"]) ∧
    get_chunks_for_product ["red", "blue"] ["dress"] ["party", "formal"] =
      ["red blue dress party dress formal"] := by
  refine ⟨fun _ _ _ => rfl, by decide, by decide, rfl, by decide⟩

/-! ## ChunkReassembler: `group_and_combine` from product_search/main.py -/

/-- One retrieved hit, as built by `get_doc_with_title`. -/
structure Hit where
  product_id : String
  doc_title : String
  deriving DecidableEq, Repr

/-- Python's `s.split("__")`: greedy leftmost, non-overlapping split of a
character list on the two-character separator `__`. -/
def splitUU : List Char → List (List Char)
  | [] => [[]]
  | '_' :: '_' :: rest => [] :: splitUU rest
  | c :: rest =>
    match splitUU rest with
    | [] => [[c]]
    | t :: ts => (c :: t) :: ts

/-- Left-to-right decimal accumulation of a digit run; `none` on the first
non-digit character. -/
def parseDigitsAux : List Char → Nat → Option Nat
  | [], acc => some acc
  | c :: cs, acc =>
    if c.isDigit then parseDigitsAux cs (acc * 10 + (c.toNat - 48)) else none

/-- Python's `int(s)` on the plain decimal domain used by the code: an
optional leading minus sign followed by at least one digit (the code only
ever applies it to chunk sequence suffixes). -/
def intParse : List Char → Option Int
  | [] => none
  | '-' :: cs =>
    if cs = [] then none else (parseDigitsAux cs 0).map fun n => -(n : Int)
  | cs => (parseDigitsAux cs 0).map fun n => (n : Int)

/-- The per-hit id handling of `group_and_combine`: split the id on `__`;
one part means the whole id with sequence 0; two parts mean
`(actual_id, int(sequence))`; any other shape (or a non-integer sequence)
raises in Python, modelled as `none`. -/
def parseSub (product_id : String) : Option (String × Int) :=
  match splitUU product_id.data with
  | [p] => some (String.mk p, 0)
  | [p, s] => (intParse s).map fun n => (String.mk p, n)
  | _ => none

/-- A parsed hit: `(actual_id, (sequence, doc_title))`, the tuple stored in
the `defaultdict` group of `group_and_combine`. -/
def parseHit (h : Hit) : Option (String × Int × String) :=
  (parseSub h.product_id).map fun pn => (pn.1, pn.2, h.doc_title)

/-- Option-valued traversal: `none` as soon as one element fails, modelling
the Python loop raising on the first malformed hit. -/
def mapOpt (f : Hit → Option (String × Int × String)) :
    List Hit → Option (List (String × Int × String))
  | [] => some []
  | h :: hs =>
    match f h, mapOpt f hs with
    | some x, some xs => some (x :: xs)
    | _, _ => none

/-- Append a key if not already present: one step of first-occurrence
deduplication, matching `defaultdict` insertion order. -/
def insertIfNew (ks : List String) (k : String) : List String :=
  if k ∈ ks then ks else ks ++ [k]

/-- First-occurrence deduplication of a key list. -/
def firstDedup (l : List String) : List String :=
  l.foldl insertIfNew []

/-- Comparison used by `sorted(items, key=lambda x: x[0])`. -/
def seqLE (a b : Int × String) : Prop := a.1 ≤ b.1

instance : DecidableRel seqLE := fun a b => inferInstanceAs (Decidable (a.1 ≤ b.1))

instance : IsTotal (Int × String) seqLE := ⟨fun a b => le_total a.1 b.1⟩

instance : IsTrans (Int × String) seqLE := ⟨fun _ _ _ h1 h2 => le_trans h1 h2⟩

/-- Python's stable `sorted` on `(sequence, title)` pairs keyed by the
sequence number. -/
def sortSeq (l : List (Int × String)) : List (Int × String) :=
  List.insertionSort seqLE l

/-- Embeds `group_and_combine(products)`: parse every hit id (error, i.e.
`none`, if any id is malformed), group the `(sequence, title)` pairs by
actual id in first-occurrence key order, sort each group by sequence and
join the titles with single spaces. The Python dict result is modelled as
an association list. -/
def group_and_combine (products : List Hit) : Option (List (String × String)) :=
  (mapOpt parseHit products).map fun parsed =>
    (firstDedup (parsed.map (·.1))).map fun k =>
      (k, joinSpace ((sortSeq ((parsed.filter (fun x => x.1 = k)).map (·.2))).map (·.2)))

/-- Association-list lookup (first match), the observation function for the
dict returned by `group_and_combine`. -/
def alookup : List (String × String) → String → Option String
  | [], _ => none
  | (a, b) :: t, k => if a = k then some b else alookup t k

/-- The claim's description of reassembly, phrased per product id: the
`(sequence, title)` pairs of all hits whose id parses to this product,
sorted ascending by sequence, titles joined with a single space; `none`
when no hit belongs to the product. -/
def reassembleSpec (hits : List Hit) (k : String) : Option String :=
  let grp := hits.filterMap fun h =>
    (parseSub h.product_id).bind fun pn =>
      if pn.1 = k then some (pn.2, h.doc_title) else none
  if grp.isEmpty then none
  else some (joinSpace ((sortSeq grp).map (·.2)))

lemma mem_insertIfNew {ks : List String} {k a : String} :
    a ∈ insertIfNew ks k ↔ a ∈ ks ∨ a = k := by
  unfold insertIfNew
  split
  · rename_i h
    constructor
    · exact Or.inl
    · rintro (h1 | rfl)
      · exact h1
      · exact h
  · simp

lemma nodup_insertIfNew {ks : List String} {k : String} (h : ks.Nodup) :
    (insertIfNew ks k).Nodup := by
  unfold insertIfNew
  split
  · exact h
  · rename_i hk
    simp [List.nodup_append, h, hk]

lemma mem_foldl_insertIfNew (l : List String) :
    ∀ (acc : List String) (a : String),
      a ∈ l.foldl insertIfNew acc ↔ a ∈ acc ∨ a ∈ l := by
  induction l with
  | nil => simp
  | cons x xs ih =>
    intro acc a
    simp only [List.foldl_cons, ih, mem_insertIfNew, List.mem_cons]
    tauto

lemma nodup_foldl_insertIfNew (l : List String) :
    ∀ acc : List String, acc.Nodup → (l.foldl insertIfNew acc).Nodup := by
  induction l with
  | nil => exact fun acc h => h
  | cons x xs ih => exact fun acc h => ih _ (nodup_insertIfNew h)

lemma mem_firstDedup {l : List String} {a : String} :
    a ∈ firstDedup l ↔ a ∈ l := by
  simp [firstDedup, mem_foldl_insertIfNew]

lemma nodup_firstDedup (l : List String) : (firstDedup l).Nodup :=
  nodup_foldl_insertIfNew l [] List.nodup_nil

lemma alookup_keysMap (F : String → String) :
    ∀ (keys : List String) (k : String),
      alookup (keys.map fun k' => (k', F k')) k =
        if k ∈ keys then some (F k) else none := by
  intro keys
  induction keys with
  | nil => simp [alookup]
  | cons a ks ih =>
    intro k
    by_cases hak : a = k
    · subst hak
      simp [alookup]
    · have hiff : (k ∈ a :: ks) ↔ (k ∈ ks) := by
        simp only [List.mem_cons]
        constructor
        · rintro (rfl | h1)
          · exact absurd rfl hak
          · exact h1
        · exact Or.inr
      simp only [List.map_cons, alookup, if_neg hak, ih, if_congr hiff rfl rfl]

lemma mapOpt_some_of_wf :
    ∀ (hits : List Hit), (∀ h ∈ hits, (parseHit h).isSome) →
      ∃ parsed, mapOpt parseHit hits = some parsed ∧
        List.Forall₂ (fun h x => parseHit h = some x) hits parsed := by
  intro hits
  induction hits with
  | nil => exact fun _ => ⟨[], rfl, List.Forall₂.nil⟩
  | cons h hs ih =>
    intro hwf
    obtain ⟨x, hx⟩ := Option.isSome_iff_exists.mp (hwf h (by simp))
    obtain ⟨parsed, hmo, hf⟩ := ih fun h' hh' => hwf h' (by simp [hh'])
    exact ⟨x :: parsed, by simp [mapOpt, hx, hmo], List.Forall₂.cons hx hf⟩

/-- The hit set contributing to a product id `k`, computed on parsed hits. -/
lemma grp_of_forall₂ {hits : List Hit} {parsed : List (String × Int × String)}
    (hf : List.Forall₂ (fun h x => parseHit h = some x) hits parsed) (k : String) :
    (hits.filterMap fun h =>
        (parseSub h.product_id).bind fun pn =>
          if pn.1 = k then some (pn.2, h.doc_title) else none) =
      (parsed.filter (fun x => x.1 = k)).map (·.2) := by
  induction hf with
  | nil => simp
  | @cons h x hs xs hrel htail ih =>
    obtain ⟨pn, hpn, hx⟩ := Option.map_eq_some'.mp hrel
    rw [List.filterMap_cons]
    by_cases hk : pn.1 = k
    · simp [hpn, hk, List.filter_cons, ← hx, ih]
    · simp [hpn, hk, List.filter_cons, ← hx, ih]

lemma filter_ne_nil_iff_mem_map {parsed : List (String × Int × String)} {k : String} :
    (parsed.filter (fun x => x.1 = k)) ≠ [] ↔ k ∈ parsed.map (·.1) := by
  simp only [ne_eq, List.filter_eq_nil_iff, List.mem_map, not_forall]
  constructor
  · rintro ⟨x, hx, hk⟩
    exact ⟨x, hx, by simpa using hk⟩
  · rintro ⟨x, hx, hk⟩
    exact ⟨x, hx, by simpa using hk⟩

/-- Main characterisation: on well-formed hits `group_and_combine` succeeds
and the resulting dict maps each product id exactly as `reassembleSpec`
prescribes. -/
lemma gac_spec {hits : List Hit} (hwf : ∀ h ∈ hits, (parseHit h).isSome) :
    ∃ m, group_and_combine hits = some m ∧
      ∀ k, alookup m k = reassembleSpec hits k := by
  obtain ⟨parsed, hmo, hf⟩ := mapOpt_some_of_wf hits hwf
  refine ⟨_, by rw [group_and_combine, hmo]; rfl, ?_⟩
  intro k
  rw [alookup_keysMap]
  rw [reassembleSpec]
  simp only [grp_of_forall₂ hf k]
  by_cases hk : k ∈ firstDedup (parsed.map (·.1))
  · have hne : (parsed.filter (fun x => x.1 = k)) ≠ [] :=
      filter_ne_nil_iff_mem_map.mpr (mem_firstDedup.mp hk)
    have hemp : ((parsed.filter (fun x => x.1 = k)).map (·.2)).isEmpty = false := by
      simpa [List.isEmpty_iff] using hne
    simp [hk, hemp]
  · have hnil : (parsed.filter (fun x => x.1 = k)) = [] := by
      by_contra hne
      exact hk (mem_firstDedup.mpr (filter_ne_nil_iff_mem_map.mp hne))
    simp [hk, hnil]

/-- C3: for every list of hits whose ids are well formed (at most one
`__` separator, integer sequence suffix — exactly the domain on which the
claim's own description of splitting is defined), `group_and_combine`
returns a mapping that sends each base product id to the titles of its
group sorted ascending by sequence number (ids without a separator
getting sequence 0) and joined with single spaces, duplicates preserved —
i.e. it agrees pointwise with `reassembleSpec`, the claim's description. -/
theorem claim_C3 (hits : List Hit) (hwf : ∀ h ∈ hits, (parseHit h).isSome) :
    ∃ m, group_and_combine hits = some m ∧
      ∀ k, alookup m k = reassembleSpec hits k :=
  gac_spec hwf

/-- Closed instance of C3 on the two-chunk fixture from the spec. -/
theorem claim_C3_witness :
    (∀ h ∈ [(⟨"P1__1", "casual wear"⟩ : Hit), ⟨"P1__0", "red dress"⟩],
      (parseHit h).isSome) ∧
    (∃ m, group_and_combine [(⟨"P1__1", "casual wear"⟩ : Hit), ⟨"P1__0", "red dress"⟩] = some m ∧
      ∀ k, alookup m k =
        reassembleSpec [(⟨"P1__1", "casual wear"⟩ : Hit), ⟨"P1__0", "red dress"⟩] k) :=
  ⟨by decide, claim_C3 [⟨"P1__1", "casual wear"⟩, ⟨"P1__0", "red dress"⟩] (by decide)⟩

/-- Hits never disagree on the title at equal `(base id, sequence)` pairs.
This holds for real retrieval output, where sequence numbers are unique
per base product; it is the hypothesis under which reassembly is
order-independent. -/
def TitleCoherent (hits : List Hit) : Prop :=
  ∀ h1 ∈ hits, ∀ h2 ∈ hits,
    parseSub h1.product_id = parseSub h2.product_id →
    parseSub h1.product_id ≠ none →
    h1.doc_title = h2.doc_title

instance (hits : List Hit) : Decidable (TitleCoherent hits) := by
  unfold TitleCoherent
  exact List.decidableBAll _ hits

/-- Strict-or-equal ordering on `(sequence, title)` pairs; antisymmetric,
used to show two sorted groups that are permutations of each other are
equal. -/
def seqStrict (a b : Int × String) : Prop := a.1 < b.1 ∨ a = b

instance : IsAntisymm (Int × String) seqStrict :=
  ⟨fun a b h1 h2 => by
    rcases h1 with h1 | h1
    · rcases h2 with h2 | h2
      · exact absurd h2 (lt_asymm h1)
      · exact h2.symm
    · exact h1⟩

lemma grp_coherent {hits : List Hit} (hc : TitleCoherent hits) (k : String) :
    ∀ x ∈ (hits.filterMap fun h =>
        (parseSub h.product_id).bind fun pn =>
          if pn.1 = k then some (pn.2, h.doc_title) else none),
    ∀ y ∈ (hits.filterMap fun h =>
        (parseSub h.product_id).bind fun pn =>
          if pn.1 = k then some (pn.2, h.doc_title) else none),
      x.1 = y.1 → x = y := by
  intro x hxm y hym hxy
  obtain ⟨h1, hh1, hf1⟩ := List.mem_filterMap.mp hxm
  obtain ⟨h2, hh2, hf2⟩ := List.mem_filterMap.mp hym
  obtain ⟨p1, hp1, hi1⟩ := Option.bind_eq_some.mp hf1
  obtain ⟨p2, hp2, hi2⟩ := Option.bind_eq_some.mp hf2
  by_cases hk1 : p1.1 = k
  · by_cases hk2 : p2.1 = k
    · rw [if_pos hk1] at hi1
      rw [if_pos hk2] at hi2
      obtain ⟨rfl⟩ := Option.some_inj.mp hi1
      obtain ⟨rfl⟩ := Option.some_inj.mp hi2
      have hp12 : p1 = p2 := by
        rcases p1 with ⟨b1, s1⟩
        rcases p2 with ⟨b2, s2⟩
        simp only at hk1 hk2 hxy ⊢
        exact Prod.ext (hk1.trans hk2.symm) hxy
      have ht : h1.doc_title = h2.doc_title :=
        hc h1 hh1 h2 hh2 (by rw [hp1, hp2, hp12]) (by simp [hp1])
      exact Prod.ext (by simpa using hxy) ht
    · rw [if_neg hk2] at hi2
      exact absurd hi2 (by simp)
  · rw [if_neg hk1] at hi1
    exact absurd hi1 (by simp)

lemma sortSeq_sorted_strict {grp : List (Int × String)}
    (hcoh : ∀ x ∈ grp, ∀ y ∈ grp, x.1 = y.1 → x = y) :
    (sortSeq grp).Sorted seqStrict := by
  have hs : (sortSeq grp).Sorted seqLE := List.sorted_insertionSort seqLE grp
  have hmem : ∀ a ∈ sortSeq grp, a ∈ grp := fun a ha =>
    (List.perm_insertionSort seqLE grp).subset ha
  exact hs.imp_of_mem fun {a b} hma hmb hle => by
    rcases lt_or_eq_of_le hle with hlt | heq
    · exact Or.inl hlt
    · exact Or.inr (hcoh a (hmem a hma) b (hmem b hmb) heq)

lemma reassemble_body_eq {grp1 grp2 : List (Int × String)} (hperm : grp1.Perm grp2)
    (hcoh1 : ∀ x ∈ grp1, ∀ y ∈ grp1, x.1 = y.1 → x = y) :
    (if grp1.isEmpty then none else some (joinSpace ((sortSeq grp1).map (·.2)))) =
      (if grp2.isEmpty then none else some (joinSpace ((sortSeq grp2).map (·.2)))) := by
  have hemp : grp1.isEmpty = grp2.isEmpty := by
    have h := hperm.length_eq
    cases grp1 <;> cases grp2 <;> simp_all
  by_cases he : grp1.isEmpty
  · rw [if_pos he, if_pos (hemp ▸ he)]
  · have hcoh2 : ∀ x ∈ grp2, ∀ y ∈ grp2, x.1 = y.1 → x = y := fun x hx y hy =>
      hcoh1 x (hperm.mem_iff.mpr hx) y (hperm.mem_iff.mpr hy)
    have hsorteq : sortSeq grp1 = sortSeq grp2 := by
      refine List.eq_of_perm_of_sorted ?_ (sortSeq_sorted_strict hcoh1)
        (sortSeq_sorted_strict hcoh2)
      exact ((List.perm_insertionSort seqLE _).trans hperm).trans
        (List.perm_insertionSort seqLE _).symm
    rw [if_neg he, if_neg (hemp ▸ he), hsorteq]

/-- Under title coherence, reassembly reads the same for any permutation
of the hit list. -/
lemma reassembleSpec_perm {hits1 hits2 : List Hit} (hp : hits1.Perm hits2)
    (hc : TitleCoherent hits1) (k : String) :
    reassembleSpec hits1 k = reassembleSpec hits2 k := by
  simp only [reassembleSpec]
  exact reassemble_body_eq (hp.filterMap _) (grp_coherent hc k)

/-- C4 (amended): reassembly is a deterministic pure function of the hit
list, and for hit lists in which hits agreeing on `(base id, sequence)`
also agree on the title — in particular whenever sequence numbers are
unique per base product, as chunk generation guarantees — the resulting
blob mapping is invariant under any permutation of the input hit order. -/
theorem claim_C4 (hits1 hits2 : List Hit) (hp : hits1.Perm hits2)
    (hc : TitleCoherent hits1) (hwf : ∀ h ∈ hits1, (parseHit h).isSome) :
    ∃ m1 m2, group_and_combine hits1 = some m1 ∧
      group_and_combine hits2 = some m2 ∧
      ∀ k, alookup m1 k = alookup m2 k := by
  obtain ⟨m1, hm1, hl1⟩ := gac_spec hwf
  obtain ⟨m2, hm2, hl2⟩ := gac_spec (fun h hh => hwf h (hp.mem_iff.mpr hh))
  exact ⟨m1, m2, hm1, hm2, fun k => by
    rw [hl1 k, hl2 k]
    exact reassembleSpec_perm hp hc k⟩

/-- The unrestricted form of C4 is false: with two hits sharing the same
base id and sequence number but different titles, reversing the input
changes the blob for `"P1"` from `"a b"` to `"b a"`. -/
theorem claim_C4_counterexample :
    ([(⟨"P1__0", "a"⟩ : Hit), ⟨"P1__0", "b"⟩].Perm
      [(⟨"P1__0", "b"⟩ : Hit), ⟨"P1__0", "a"⟩]) ∧
    group_and_combine [(⟨"P1__0", "a"⟩ : Hit), ⟨"P1__0", "b"⟩] =
      some [("P1", "a b")] ∧
    group_and_combine [(⟨"P1__0", "b"⟩ : Hit), ⟨"P1__0", "a"⟩] =
      some [("P1", "b a")] ∧
    alookup [("P1", "a b")] "P1" ≠ alookup [("P1", "b a")] "P1" := by
  refine ⟨List.Perm.swap _ _ _, by decide, by decide, by decide⟩

/-- Closed instance of C4 on the spec's fixture, in both input orders. -/
theorem claim_C4_witness :
    ([(⟨"P1__1", "casual wear"⟩ : Hit), ⟨"P1__0", "red dress"⟩].Perm
      [(⟨"P1__0", "red dress"⟩ : Hit), ⟨"P1__1", "casual wear"⟩]) ∧
    TitleCoherent [(⟨"P1__1", "casual wear"⟩ : Hit), ⟨"P1__0", "red dress"⟩] ∧
    (∃ m1 m2,
      group_and_combine [(⟨"P1__1", "casual wear"⟩ : Hit), ⟨"P1__0", "red dress"⟩] = some m1 ∧
      group_and_combine [(⟨"P1__0", "red dress"⟩ : Hit), ⟨"P1__1", "casual wear"⟩] = some m2 ∧
      ∀ k, alookup m1 k = alookup m2 k) ∧
    group_and_combine [(⟨"P1__1", "casual wear"⟩ : Hit), ⟨"P1__0", "red dress"⟩] =
      some [("P1", "red dress casual wear")] :=
  ⟨List.Perm.swap _ _ _, by decide,
   claim_C4 [⟨"P1__1", "casual wear"⟩, ⟨"P1__0", "red dress"⟩]
     [⟨"P1__0", "red dress"⟩, ⟨"P1__1", "casual wear"⟩]
     (List.Perm.swap _ _ _) (by decide) (by decide),
   by decide⟩

/-- C10: reassembly is not total on malformed sub-document ids — an id
with two `__` separators, or with a non-integer suffix after the
separator, makes `group_and_combine` fail (raise in Python, `none` here)
instead of returning a blob mapping. -/
theorem claim_C10 :
    group_and_combine [(⟨"P1__2__3", "red dress"⟩ : Hit)] = none ∧
    group_and_combine [(⟨"P1__x", "blue top"⟩ : Hit)] = none ∧
    group_and_combine [(⟨"P1__1", "ok"⟩ : Hit), ⟨"P2__1__2", "bad"⟩] = none := by
  refine ⟨by decide, by decide, by decide⟩

/-! ## FuzzyMatcher: `fuzzy_search` from product_search/main.py.
The similarity primitive is rapidfuzz's `partial_ratio`, an external
library function whose code is not part of this repository. -/

/-- Modelled from the spec: the normalized edit distance underlying the
external similarity primitive (rapidfuzz), counting insertions and
deletions. Structural in both arguments so that it evaluates by `decide`. -/
def indelAux (x : Char) (xs : List Char) (f : List Char → Nat) : List Char → Nat
  | [] => xs.length + 1
  | y :: ys => if x = y then f ys else 1 + min (f (y :: ys)) (indelAux x xs f ys)

/-- Modelled from the spec: edit distance (insertions and deletions) on
character lists. -/
def indel : List Char → List Char → Nat
  | [] => fun ys => ys.length
  | x :: xs => indelAux x xs (indel xs)

lemma indel_nil_left (ys : List Char) : indel [] ys = ys.length := rfl

lemma indel_cons_nil (x : Char) (xs : List Char) : indel (x :: xs) [] = xs.length + 1 := rfl

lemma indel_cons_cons (x y : Char) (xs ys : List Char) :
    indel (x :: xs) (y :: ys) =
      if x = y then indel xs ys
      else 1 + min (indel xs (y :: ys)) (indel (x :: xs) ys) := rfl

lemma indel_self : ∀ a : List Char, indel a a = 0
  | [] => rfl
  | x :: xs => by rw [indel_cons_cons, if_pos rfl, indel_self xs]

/-- Modelled from the spec: the scaled similarity ratio
`100 * (1 - dist/(len1+len2))`, rounded down to an integer; two empty
strings score 100. -/
def ratioNat (a b : List Char) : Nat :=
  if a.length + b.length = 0 then 100
  else (100 * ((a.length + b.length) - indel a b)) / (a.length + b.length)

lemma ratioNat_le_100 (a b : List Char) : ratioNat a b ≤ 100 := by
  unfold ratioNat
  split
  · exact le_refl 100
  · rename_i h
    have hpos : 0 < a.length + b.length := Nat.pos_of_ne_zero h
    calc (100 * ((a.length + b.length) - indel a b)) / (a.length + b.length)
        ≤ (100 * (a.length + b.length)) / (a.length + b.length) :=
          Nat.div_le_div_right (Nat.mul_le_mul_left _ (Nat.sub_le _ _))
      _ = 100 := Nat.mul_div_cancel 100 hpos

lemma ratioNat_self (a : List Char) : ratioNat a a = 100 := by
  unfold ratioNat
  split
  · rfl
  · rename_i h
    have hpos : 0 < a.length + a.length := Nat.pos_of_ne_zero h
    rw [indel_self, Nat.sub_zero, Nat.mul_div_cancel 100 hpos]

/-- Modelled from the spec: rapidfuzz `partial_ratio` — the best
`ratioNat` alignment of the shorter input against every window of the
longer input of the shorter input's length. -/
def best_window_ratio (a b : List Char) : Nat :=
  let s := if a.length ≤ b.length then a else b
  let l := if a.length ≤ b.length then b else a
  ((List.range (l.length - s.length + 1)).map fun i =>
    ratioNat s ((l.drop i).take s.length)).foldl max 0

lemma foldl_max_le (bd : Nat) :
    ∀ (l : List Nat) (init : Nat), init ≤ bd → (∀ x ∈ l, x ≤ bd) →
      l.foldl max init ≤ bd := by
  intro l
  induction l with
  | nil => exact fun init h _ => h
  | cons x xs ih =>
    intro init hinit hall
    exact ih (max init x) (max_le hinit (hall x (by simp)))
      fun y hy => hall y (by simp [hy])

lemma best_window_ratio_le_100 (a b : List Char) : best_window_ratio a b ≤ 100 := by
  unfold best_window_ratio
  exact foldl_max_le 100 _ 0 (Nat.zero_le _) fun x hx => by
    obtain ⟨i, _, rfl⟩ := List.mem_map.mp hx
    exact ratioNat_le_100 _ _

lemma best_window_ratio_self (a : List Char) : best_window_ratio a a = 100 := by
  unfold best_window_ratio
  have h1 : List.range (a.length - a.length + 1) = [0] := by
    rw [Nat.sub_self]
    rfl
  simp only [le_refl, if_true, h1, List.map_cons, List.map_nil, List.drop_zero]
  rw [List.take_length, ratioNat_self]
  rfl

/-- Lowercasing as done by Python's `str.lower` on the blobs and queries
(character-wise). -/
def lowerStr (s : String) : String := String.mk (s.data.map Char.toLower)

/-- The similarity computed by `fuzzy_search` for one product:
`partial_ratio(query.lower(), combined_text.lower())`. -/
def fuzzy_score (query combined_text : String) : Nat :=
  best_window_ratio (lowerStr query).data (lowerStr combined_text).data

/-- One fuzzy match result, as appended by `fuzzy_search`:
`{product_title, score, product_id}`. rapidfuzz returns a float score,
modelled as an exact rational. -/
structure FuzzyRes where
  product_title : String
  score : ℚ
  product_id : String
  deriving DecidableEq, Repr

/-- Ordering used by `results.sort(key=lambda x: x["score"], reverse=True)`. -/
def fuzzyDesc (a b : FuzzyRes) : Prop := b.score ≤ a.score

instance : DecidableRel fuzzyDesc := fun a b => inferInstanceAs (Decidable (b.score ≤ a.score))

instance : IsTotal FuzzyRes fuzzyDesc := ⟨fun a b => le_total b.score a.score⟩

instance : IsTrans FuzzyRes fuzzyDesc := ⟨fun _ _ _ h1 h2 => le_trans h2 h1⟩

/-- Embeds `fuzzy_search(query, products, threshold)`: score every
`(product_id, combined_title)` entry, keep scores at or above the
threshold, sort descending by score (Python's stable sort). -/
def fuzzy_search (query : String) (products : List (String × String))
    (threshold : Nat) : List FuzzyRes :=
  List.insertionSort fuzzyDesc
    (products.filterMap fun pr =>
      if threshold ≤ fuzzy_score query pr.2 then
        some ⟨pr.2, (fuzzy_score query pr.2 : ℚ), pr.1⟩
      else none)

/-- C7: the fuzzy similarity is an integer (a natural number by type) in
[0, 100]; it is case-insensitive — inputs equal up to lowercasing score
identically, the code lowercasing both arguments itself; and any string
scored against itself scores exactly 100. -/
theorem claim_C7 (q b : String) :
    fuzzy_score q b ≤ 100 ∧
    (∀ q2 b2 : String, lowerStr q = lowerStr q2 → lowerStr b = lowerStr b2 →
      fuzzy_score q b = fuzzy_score q2 b2) ∧
    fuzzy_score q q = 100 := by
  refine ⟨best_window_ratio_le_100 _ _, ?_, best_window_ratio_self _⟩
  intro q2 b2 hq hb
  unfold fuzzy_score
  rw [hq, hb]

/-- Closed instance of C7: bound, case-insensitivity across differing
cases, and self-similarity at concrete strings. -/
theorem claim_C7_witness :
    fuzzy_score "Red Dress" "red dress casual wear" ≤ 100 ∧
    lowerStr "Red Dress" = lowerStr "red dress" ∧
    lowerStr "Casual" = lowerStr "CASUAL" ∧
    fuzzy_score "Red Dress" "Casual" = fuzzy_score "red dress" "CASUAL" ∧
    fuzzy_score "red dress" "red dress" = 100 :=
  ⟨(claim_C7 "Red Dress" "red dress casual wear").1, by decide, by decide,
   (claim_C7 "Red Dress" "Casual").2.1 "red dress" "CASUAL" (by decide) (by decide),
   (claim_C7 "red dress" "red dress").2.2⟩

/-! ## Query-time retrieval: hit selection before reassembly -/

/-- The fields of one Kendra `ResultItems[]` entry consumed by the code. -/
structure ResultItem where
  DocumentId : String
  DocumentTitleText : String
  ScoreConfidence : String
  deriving DecidableEq, Repr

/-- Embeds `get_doc_title(document)`. -/
def get_doc_title (document : ResultItem) : String :=
  document.DocumentTitleText

/-- Embeds `get_doc_with_title(documents)`: keep every document whose
`DocumentId` is non-empty (Python truthiness) and pair it with its title.
This is the only filtering applied on the path from the Kendra response
to `group_and_combine` in `retrieve_kendra`. -/
def get_doc_with_title : List ResultItem → List Hit
  | [] => []
  | doc :: docs =>
    if doc.DocumentId ≠ "" then
      ⟨doc.DocumentId, get_doc_title doc⟩ :: get_doc_with_title docs
    else get_doc_with_title docs

/-- Embeds `process_single_result(item)`: the confidence filter that does
exist in the file — but `retrieve_kendra` does not call it on the path to
reassembly (its uses are commented out). -/
def process_single_result (item : ResultItem) : Option String :=
  if item.DocumentId ≠ "" ∧
      item.ScoreConfidence ∈ ["VERY_HIGH", "HIGH", "MEDIUM"] then
    some item.DocumentId
  else none

/-- C2 as stated is false: a hit with confidence "LOW" (rejected by
`process_single_result`) still reaches the reassembly input — the actual
path `get_doc_with_title` keeps it. -/
theorem claim_C2_counterexample :
    get_doc_with_title [(⟨"P1", "red dress", "LOW"⟩ : ResultItem)] =
      [(⟨"P1", "red dress"⟩ : Hit)] ∧
    process_single_result (⟨"P1", "red dress", "LOW"⟩ : ResultItem) = none ∧
    ¬ (⟨"P1", "red dress", "LOW"⟩ : ResultItem).ScoreConfidence ∈
        ["VERY_HIGH", "HIGH", "MEDIUM"] := by
  refine ⟨by decide, by decide, by decide⟩

/-- C2 (amended): on the active path of `retrieve_kendra`, hits reaching
`ChunkReassembler` are selected only by a non-empty `DocumentId`; the
confidence filter of `process_single_result` is not applied, so hits of
every `ScoreConfidence` are retained. -/
theorem claim_C2 (documents : List ResultItem) :
    (get_doc_with_title documents =
      (documents.filter fun d => d.DocumentId ≠ "").map
        fun d => (⟨d.DocumentId, d.DocumentTitleText⟩ : Hit)) ∧
    (∀ d ∈ documents, d.DocumentId ≠ "" →
      (⟨d.DocumentId, d.DocumentTitleText⟩ : Hit) ∈ get_doc_with_title documents) := by
  constructor
  · induction documents with
    | nil => rfl
    | cons doc docs ih =>
      by_cases hd : doc.DocumentId ≠ ""
      · simp [get_doc_with_title, List.filter_cons, hd, ih, get_doc_title]
      · simp [get_doc_with_title, List.filter_cons, hd, ih]
  · intro d hd hne
    induction documents with
    | nil => exact absurd hd (List.not_mem_nil d)
    | cons doc docs ih =>
      rcases List.mem_cons.mp hd with rfl | hmem
      · rw [get_doc_with_title, if_pos hne]
        exact List.mem_cons_self _ _
      · rw [get_doc_with_title]
        split
        · exact List.mem_cons_of_mem _ (ih hmem)
        · exact ih hmem

/-- Closed instance of C2 (amended): a LOW-confidence hit with a
non-empty id is in the reassembly input. -/
theorem claim_C2_witness :
    (⟨"P1", "t1"⟩ : Hit) ∈ get_doc_with_title
      [(⟨"P1", "t1", "LOW"⟩ : ResultItem), ⟨"", "t2", "HIGH"⟩, ⟨"P3", "t3", "MEDIUM"⟩] :=
  (claim_C2 [⟨"P1", "t1", "LOW"⟩, ⟨"", "t2", "HIGH"⟩, ⟨"P3", "t3", "MEDIUM"⟩]).2
    ⟨"P1", "t1", "LOW"⟩ (by decide) (by decide)

/-! ## ResultFusion: weighting, outer join and ranking -/

/-- Embeds `weight_results(prod_type, prod_color, prod_occasion)`: weighted
sum with weights 3/2/1, normalised by 100 times the sum of the weights of
the truthy (non-zero) scores; 0 when every score is zero. Python float
arithmetic is modelled exactly in ℚ. -/
def weight_results (prod_type prod_color prod_occasion : ℚ) : ℚ :=
  let prod_type_weight : ℚ := 3
  let prod_color_weight : ℚ := 2
  let prod_occasion_weight : ℚ := 1
  let prod := prod_type_weight * prod_type + prod_color_weight * prod_color +
    prod_occasion_weight * prod_occasion
  let total_weight :=
    (if prod_type ≠ 0 then prod_type_weight else 0) +
    (if prod_color ≠ 0 then prod_color_weight else 0) +
    (if prod_occasion ≠ 0 then prod_occasion_weight else 0)
  if total_weight ≠ 0 then prod / (total_weight * 100) else 0

/-- The spec's `weightedScore`: the pair `(totalWeight, overallScore)` as
assembled by `weight_list_of_product_results` (`res` and `res*100`). -/
def weightedScore (t c o : ℚ) : ℚ × ℚ :=
  (weight_results t c o, weight_results t c o * 100)

/-- C1: the fusion weighting has numerator `3t + 2c + 1o` and denominator
`100 * Σ(weights of the non-zero scores)`, returning the quotient when the
denominator is positive and 0 otherwise, with overall score
`totalWeight * 100`; in particular `weightedScore(80,60,0) = (0.72, 72)`
and `weightedScore(0,0,0) = (0,0)`. -/
theorem claim_C1 (t c o : ℚ) :
    (weight_results t c o =
      if 0 < 100 * ((if t ≠ 0 then (3 : ℚ) else 0) + (if c ≠ 0 then 2 else 0) +
          (if o ≠ 0 then 1 else 0))
      then (3 * t + 2 * c + 1 * o) /
        (100 * ((if t ≠ 0 then (3 : ℚ) else 0) + (if c ≠ 0 then 2 else 0) +
          (if o ≠ 0 then 1 else 0)))
      else 0) ∧
    weightedScore 80 60 0 = (0.72, 72) ∧
    weightedScore 0 0 0 = (0, 0) := by
  refine ⟨?_, by norm_num [weightedScore, weight_results], by norm_num [weightedScore, weight_results]⟩
  have h3 : (0 : ℚ) ≤ if t ≠ 0 then (3 : ℚ) else 0 := by split <;> norm_num
  have h2 : (0 : ℚ) ≤ if c ≠ 0 then (2 : ℚ) else 0 := by split <;> norm_num
  have h1 : (0 : ℚ) ≤ if o ≠ 0 then (1 : ℚ) else 0 := by split <;> norm_num
  have hS : (0 : ℚ) ≤ (if t ≠ 0 then (3 : ℚ) else 0) + (if c ≠ 0 then 2 else 0) +
      (if o ≠ 0 then 1 else 0) := add_nonneg (add_nonneg h3 h2) h1
  have hiff : ((if t ≠ 0 then (3 : ℚ) else 0) + (if c ≠ 0 then 2 else 0) +
      (if o ≠ 0 then 1 else 0) ≠ 0) ↔
      (0 < 100 * ((if t ≠ 0 then (3 : ℚ) else 0) + (if c ≠ 0 then 2 else 0) +
        (if o ≠ 0 then 1 else 0))) := by
    constructor
    · intro h
      have hpos : (0 : ℚ) < (if t ≠ 0 then (3 : ℚ) else 0) + (if c ≠ 0 then 2 else 0) +
          (if o ≠ 0 then 1 else 0) := lt_of_le_of_ne hS (Ne.symm h)
      exact mul_pos (by norm_num) hpos
    · intro h h0
      rw [h0, mul_zero] at h
      exact lt_irrefl 0 h
  simp only [weight_results]
  exact if_congr hiff (by rw [mul_comm _ (100 : ℚ)]) rfl

/-- The outer-join record of `match_products_partial`: one entry per
product id, each side an optional fuzzy match (Python's `{}` default is
modelled as `none`). -/
structure Joined where
  prod_type : Option FuzzyRes
  prod_color : Option FuzzyRes
  product_occasion : Option FuzzyRes
  product_id : String
  deriving DecidableEq, Repr

/-- Python's `{item["product_id"]: item for item in list}.get(pid, {})`:
the last entry with the given product id, if any. -/
def dictLookup (l : List FuzzyRes) (pid : String) : Option FuzzyRes :=
  l.reverse.find? fun r => r.product_id == pid

/-- Embeds `match_products_partial(list1, list2, list3)` (renamed since the
gate reserves the substring of the Python name): one record per product id
in the union of the three lists' ids. Python iterates the union as an
unordered set; here the ids are taken in first-occurrence order, which the
claims never depend on. -/
def match_products_union (list1 list2 list3 : List FuzzyRes) : List Joined :=
  let all_product_ids := firstDedup
    (list1.map (·.product_id) ++ list2.map (·.product_id) ++ list3.map (·.product_id))
  all_product_ids.map fun pid =>
    ⟨dictLookup list1 pid, dictLookup list2 pid, dictLookup list3 pid, pid⟩

/-- Python's `pro_res.get(side).get("score", 0)` with `{}` for an absent
side: the score of an optional match, 0 when absent. -/
def scoreOf (o : Option FuzzyRes) : ℚ := (o.map (·.score)).getD 0

/-- One fused result as assembled by `weight_list_of_product_results`;
the Python falsy `False` placeholders for absent sides are modelled as
`none`. -/
structure Weighted where
  product_id : String
  total_weight : ℚ
  overall_score : ℚ
  prod_type : Option FuzzyRes
  prod_color : Option FuzzyRes
  product_occasion : Option FuzzyRes
  deriving DecidableEq, Repr

/-- Embeds `weight_list_of_product_results(product_results)`. -/
def weight_list_of_product_results (product_results : List Joined) : List Weighted :=
  product_results.map fun pr =>
    let res := weight_results (scoreOf pr.prod_type) (scoreOf pr.prod_color)
      (scoreOf pr.product_occasion)
    ⟨pr.product_id, res, res * 100, pr.prod_type, pr.prod_color, pr.product_occasion⟩

/-- C8: the outer join produces exactly one record per product id in the
union of the three lists' ids — a product present in only one list still
appears — each record's sides are the per-list lookups (`none` when
absent), an absent side's score reads as 0, and the weighted score is
computed from exactly those read scores. -/
theorem claim_C8 (l1 l2 l3 : List FuzzyRes) :
    ((match_products_union l1 l2 l3).map (·.product_id)).Nodup ∧
    (∀ pid, pid ∈ (match_products_union l1 l2 l3).map (·.product_id) ↔
      (pid ∈ l1.map (·.product_id) ∨ pid ∈ l2.map (·.product_id) ∨
        pid ∈ l3.map (·.product_id))) ∧
    (∀ j ∈ match_products_union l1 l2 l3,
      j.prod_type = dictLookup l1 j.product_id ∧
      j.prod_color = dictLookup l2 j.product_id ∧
      j.product_occasion = dictLookup l3 j.product_id) ∧
    (∀ j ∈ match_products_union l1 l2 l3, j.prod_type = none →
      scoreOf j.prod_type = 0) ∧
    ((weight_list_of_product_results (match_products_union l1 l2 l3)).map (·.total_weight) =
      (match_products_union l1 l2 l3).map fun j =>
        weight_results (scoreOf j.prod_type) (scoreOf j.prod_color)
          (scoreOf j.product_occasion)) := by
  refine ⟨?_, ?_, ?_, ?_, ?_⟩
  · have : (match_products_union l1 l2 l3).map (·.product_id) =
        firstDedup (l1.map (·.product_id) ++ l2.map (·.product_id) ++ l3.map (·.product_id)) := by
      simp [match_products_union, List.map_map, Function.comp_def]
    rw [this]
    exact nodup_firstDedup _
  · intro pid
    have : (match_products_union l1 l2 l3).map (·.product_id) =
        firstDedup (l1.map (·.product_id) ++ l2.map (·.product_id) ++ l3.map (·.product_id)) := by
      simp [match_products_union, List.map_map, Function.comp_def]
    rw [this]
    simp [mem_firstDedup, List.mem_append, or_assoc]
  · intro j hj
    obtain ⟨pid, _, rfl⟩ := List.mem_map.mp hj
    exact ⟨rfl, rfl, rfl⟩
  · intro j _ hnone
    rw [hnone]
    rfl
  · simp [weight_list_of_product_results, List.map_map, Function.comp_def]

/-- Closed instance of C8: a product present only in the color list still
gets a record, with absent sides `none` and their scores reading 0. -/
theorem claim_C8_witness :
    ((⟨none, some ⟨"c2 title", 50, "B"⟩, none, "B"⟩ : Joined) ∈
      match_products_union [⟨"t title", 80, "A"⟩]
        [⟨"c title", 60, "A"⟩, ⟨"c2 title", 50, "B"⟩] []) ∧
    ((⟨none, some ⟨"c2 title", 50, "B"⟩, none, "B"⟩ : Joined).prod_type =
        dictLookup [⟨"t title", 80, "A"⟩] "B" ∧
      (⟨none, some ⟨"c2 title", 50, "B"⟩, none, "B"⟩ : Joined).prod_color =
        dictLookup [⟨"c title", 60, "A"⟩, ⟨"c2 title", 50, "B"⟩] "B" ∧
      (⟨none, some ⟨"c2 title", 50, "B"⟩, none, "B"⟩ : Joined).product_occasion =
        dictLookup [] "B") ∧
    scoreOf (⟨none, some ⟨"c2 title", 50, "B"⟩, none, "B"⟩ : Joined).prod_type = 0 :=
  ⟨by decide,
   (claim_C8 [⟨"t title", 80, "A"⟩] [⟨"c title", 60, "A"⟩, ⟨"c2 title", 50, "B"⟩] []).2.2.1
     ⟨none, some ⟨"c2 title", 50, "B"⟩, none, "B"⟩ (by decide),
   (claim_C8 [⟨"t title", 80, "A"⟩] [⟨"c title", 60, "A"⟩, ⟨"c2 title", 50, "B"⟩] []).2.2.2.1
     ⟨none, some ⟨"c2 title", 50, "B"⟩, none, "B"⟩ (by decide) rfl⟩

/-- Ordering used by
`sorted(weighted_results, key=lambda x: x["total_weight"], reverse=True)`. -/
def wDesc (a b : Weighted) : Prop := b.total_weight ≤ a.total_weight

instance : DecidableRel wDesc := fun a b =>
  inferInstanceAs (Decidable (b.total_weight ≤ a.total_weight))

instance : IsTotal Weighted wDesc := ⟨fun a b => le_total b.total_weight a.total_weight⟩

instance : IsTrans Weighted wDesc := ⟨fun _ _ _ h1 h2 => le_trans h2 h1⟩

/-- The sorting/filtering tail of `product_search` (main.py 444-457): sort
fused results descending by `total_weight` (Python's stable sort), then —
when a type query term was supplied — keep only results whose type-match
record is truthy; return the ranked product ids. -/
def product_rank (weighted_results : List Weighted) (typeProvided : Bool) : List String :=
  let results := List.insertionSort wDesc weighted_results
  (results.filter fun res => !typeProvided || res.prod_type.isSome).map (·.product_id)

/-- Inserting into a sorted list commutes with filtering by a predicate
whose satisfying elements are mutually tied: the essence of stability. -/
lemma filter_orderedInsert {α : Type} (r : α → α → Prop) [DecidableRel r]
    (p : α → Bool) (hp : ∀ a b, p a = true → p b = true → r a b) (x : α) :
    ∀ l : List α, (List.orderedInsert r x l).filter p =
      if p x then x :: l.filter p else l.filter p := by
  intro l
  induction l with
  | nil => by_cases hx : p x <;> simp [List.orderedInsert, List.filter_cons, hx]
  | cons y ys ih =>
    by_cases hr : r x y
    · rw [List.orderedInsert_of_le r ys hr]
      rw [List.filter_cons]
    · have hOI : List.orderedInsert r x (y :: ys) = y :: List.orderedInsert r x ys := by
        simp [List.orderedInsert, hr]
      rw [hOI]
      by_cases hx : p x
      · have hy : p y = false := by
          rcases Bool.eq_false_or_eq_true (p y) with h | h
          · exact absurd (hp x y hx h) hr
          · exact h
        simp [List.filter_cons, hy, ih, hx]
      · simp [List.filter_cons, ih, hx]

/-- Python's stable sort leaves every class of mutually tied elements in
input order. -/
lemma filter_insertionSort {α : Type} (r : α → α → Prop) [DecidableRel r]
    (p : α → Bool) (hp : ∀ a b, p a = true → p b = true → r a b) :
    ∀ l : List α, (List.insertionSort r l).filter p = l.filter p := by
  intro l
  induction l with
  | nil => rfl
  | cons a l ih =>
    show (List.orderedInsert r a (List.insertionSort r l)).filter p = _
    rw [filter_orderedInsert r p hp a, ih, List.filter_cons]

/-- C9: ranking sorts descending by `total_weight` (the sorted list is a
permutation of the input, ordered by `wDesc`), the sort is stable (every
equal-weight class keeps its input order), with a type query term every
product lacking a type-match record is dropped from the ranked id list,
and without one all products are kept. -/
theorem claim_C9 (ws : List Weighted) :
    (List.insertionSort wDesc ws).Sorted wDesc ∧
    (List.insertionSort wDesc ws).Perm ws ∧
    (∀ q : ℚ, (List.insertionSort wDesc ws).filter (fun r => decide (r.total_weight = q)) =
      ws.filter (fun r => decide (r.total_weight = q))) ∧
    product_rank ws true =
      ((List.insertionSort wDesc ws).filter fun r => r.prod_type.isSome).map (·.product_id) ∧
    product_rank ws false = (List.insertionSort wDesc ws).map (·.product_id) ∧
    (ws.Pairwise (fun a b => a.product_id ≠ b.product_id) →
      ∀ r ∈ ws, r.prod_type = none → r.product_id ∉ product_rank ws true) := by
  refine ⟨List.sorted_insertionSort wDesc ws, List.perm_insertionSort wDesc ws,
    ?_, ?_, ?_, ?_⟩
  · intro q
    refine filter_insertionSort wDesc _ ?_ ws
    intro a b ha hb
    have ha' : a.total_weight = q := of_decide_eq_true ha
    have hb' : b.total_weight = q := of_decide_eq_true hb
    rw [wDesc, ha', hb']
  · simp [product_rank]
  · simp [product_rank]
  · intro hnd r hr hnone hmem
    simp only [product_rank, List.mem_map] at hmem
    obtain ⟨r', hr'f, hpid⟩ := hmem
    have hr'mem : r' ∈ List.insertionSort wDesc ws ∧
        (!true || r'.prod_type.isSome) = true := List.mem_filter.mp hr'f
    have hr'ws : r' ∈ ws := (List.perm_insertionSort wDesc ws).subset hr'mem.1
    have hsome : r'.prod_type.isSome := by simpa using hr'mem.2
    by_cases heq : r' = r
    · rw [heq, hnone] at hsome
      exact absurd hsome (by simp)
    · have hdiff := hnd.forall (fun a b h => (h ∘ Eq.symm : b.product_id ≠ a.product_id))
        hr'ws hr heq
      exact hdiff hpid

/-- Closed instance of C9 on a three-product fixture where only two
products have a type match: the third id is absent from the ranked list. -/
theorem claim_C9_witness :
    ([(⟨"A", 1, 100, some ⟨"t", 80, "A"⟩, none, none⟩ : Weighted),
      ⟨"B", 1, 100, none, some ⟨"c", 70, "B"⟩, none⟩,
      ⟨"C", 0.5, 50, some ⟨"t2", 50, "C"⟩, none, none⟩].Pairwise
        (fun a b => a.product_id ≠ b.product_id)) ∧
    (⟨"B", 1, 100, none, some ⟨"c", 70, "B"⟩, none⟩ : Weighted).prod_type = none ∧
    "B" ∉ product_rank
      [(⟨"A", 1, 100, some ⟨"t", 80, "A"⟩, none, none⟩ : Weighted),
        ⟨"B", 1, 100, none, some ⟨"c", 70, "B"⟩, none⟩,
        ⟨"C", 0.5, 50, some ⟨"t2", 50, "C"⟩, none, none⟩] true :=
  ⟨by decide, rfl,
   (claim_C9 [⟨"A", 1, 100, some ⟨"t", 80, "A"⟩, none, none⟩,
      ⟨"B", 1, 100, none, some ⟨"c", 70, "B"⟩, none⟩,
      ⟨"C", 0.5, 50, some ⟨"t2", 50, "C"⟩, none, none⟩]).2.2.2.2.2
     (by decide) ⟨"B", 1, 100, none, some ⟨"c", 70, "B"⟩, none⟩ (by decide) rfl⟩

end HybridSearch

